import Mathlib

/-!
Verification of the backend-generator service (`server.js` and its Groq
variant): the generation-response contract and the file-tree
materialization pipeline.

Strings are modelled as `List Char` (so that every definition evaluates by
kernel reduction), filesystem paths as lists of path segments, and the
filesystem as finite lists of directory paths and file records.  All
definitions are translated from the JavaScript source; the one
spec-side definition (`claimSelect`) is marked as such.
-/

/-- Characters of a string, the computation model for JS strings. -/
abbrev Str := List Char

/-- A path segment (one component between separators). -/
abbrev Seg := List Char

/-- An absolute filesystem path, as the list of segments from the root. -/
abbrev FsPath := List Seg

/-- Boolean prefix test on paths (used for "resolves inside" checks). -/
def isPre : FsPath → FsPath → Bool
  | [], _ => true
  | _ :: _, [] => false
  | a :: as, b :: bs => if a = b then isPre as bs else false

/-- Split a JS string on the '/' separator, keeping empty components,
mirroring how `path.join` tokenizes its arguments. -/
def splitSlash (t : Str) : List Seg :=
  match t with
  | [] => [[]]
  | c :: rest =>
    let r := splitSlash rest
    if c = '/' then [] :: r
    else match r with
      | [] => [[c]]
      | s :: ss => (c :: s) :: ss

/-- Normalization step of `path.join` on an absolute base: empty and `.`
segments are dropped, `..` pops the last segment (clamped at the root),
any other segment is appended. -/
def normJoin : FsPath → List Seg → FsPath
  | acc, [] => acc
  | acc, s :: rest =>
    if s = [] ∨ s = ".".toList then normJoin acc rest
    else if s = "..".toList then normJoin acc.dropLast rest
    else normJoin (acc ++ [s]) rest

/-- `path.join(base, s)` for an absolute, already-normalized `base`. -/
def joinStr (base : FsPath) (s : Str) : FsPath :=
  normJoin base (splitSlash s)

/-- `path.dirname` on a normalized absolute path. -/
def parent (p : FsPath) : FsPath := p.dropLast

/-- `PROJECTS_DIR = path.join(__dirname, 'generated_projects')` with the
application directory modelled as `/app`. -/
def PROJECTS_DIR : FsPath := ["app".toList, "generated_projects".toList]

/-- The filesystem: existing directories, and files as
(path, content, mtime) records. -/
structure FS where
  dirs : List FsPath
  files : List (FsPath × Str × Int)
deriving DecidableEq

/-- The filesystem with no entries at all. -/
def emptyFS : FS := ⟨[], []⟩

/-- First file record stored at a path. -/
def lookupFile : List (FsPath × Str × Int) → FsPath → Option (Str × Int)
  | [], _ => none
  | (q, c, t) :: rest, p => if q = p then some (c, t) else lookupFile rest p

/-- Overwrite the record at a path, or append a fresh one. -/
def setFile : List (FsPath × Str × Int) → FsPath → Str → Int → List (FsPath × Str × Int)
  | [], p, c, t => [(p, c, t)]
  | e :: rest, p, c, t => if e.1 = p then (p, c, t) :: rest else e :: setFile rest p c t

/-- A path names an existing directory (the root always exists). -/
def IsDir (fs : FS) (p : FsPath) : Prop := p = [] ∨ p ∈ fs.dirs

instance (fs : FS) (p : FsPath) : Decidable (IsDir fs p) := by
  unfold IsDir; infer_instance

/-- A path names an existing file. -/
def IsFile (fs : FS) (p : FsPath) : Prop := (lookupFile fs.files p).isSome = true

instance (fs : FS) (p : FsPath) : Decidable (IsFile fs p) := by
  unfold IsFile; infer_instance

/-- The nonempty prefixes of a path, shortest first. -/
def prefixesNE (p : FsPath) : List FsPath :=
  (List.range p.length).map (fun i => p.take (i + 1))

/-- `fs.mkdir(p, recursive)`: creates the whole chain; fails when a file
occupies the target or one of its ancestors. -/
def mkdirRec (fs : FS) (p : FsPath) : Except Unit FS :=
  if (prefixesNE p).any (fun q => (lookupFile fs.files q).isSome) then .error ()
  else .ok { fs with dirs := prefixesNE p ++ fs.dirs }

/-- `fs.writeFile(p, c)` at time `t`: fails on the root, on a directory,
or when the parent directory does not exist; otherwise overwrites. -/
def writeFile (fs : FS) (p : FsPath) (c : Str) (t : Int) : Except Unit FS :=
  if p = [] then .error ()
  else if p ∈ fs.dirs then .error ()
  else if ¬ IsDir fs (parent p) then .error ()
  else .ok { fs with files := setFile fs.files p c t }

/-- `fs.rm(p, recursive, force)`: removes the whole subtree rooted at `p`
and never fails, even when nothing is there. -/
def rmrf (fs : FS) (p : FsPath) : FS :=
  { dirs := fs.dirs.filter (fun q => ¬ isPre p q),
    files := fs.files.filter (fun e => ¬ isPre p e.1) }

/-- One value of the parsed descriptor's `fileTree` mapping: a directory
marker, a file with optional content, or an entry whose `type` is neither
(which the source silently skips). -/
inductive FileEntry where
  | directory : FileEntry
  | file : Option Str → FileEntry
  | other : FileEntry
deriving DecidableEq

/-- The per-entry loop of `FileSystemManager.createProjectFiles`. -/
def createGo (t : Int) (projectPath : FsPath) :
    FS → List (Str × FileEntry) → Except Unit FS
  | fs, [] => .ok fs
  | fs, (rel, entry) :: rest =>
    let fullPath := joinStr projectPath rel
    match entry with
    | .directory =>
      match mkdirRec fs fullPath with
      | .ok fs' => createGo t projectPath fs' rest
      | .error e => .error e
    | .file c =>
      match mkdirRec fs (parent fullPath) with
      | .ok fs' =>
        match writeFile fs' fullPath (c.getD []) t with
        | .ok fs'' => createGo t projectPath fs'' rest
        | .error e => .error e
      | .error e => .error e
    | .other => createGo t projectPath fs rest

/-- `FileSystemManager.createProjectFiles(projectId, fileTree)`: makes the
project directory, then walks the tree in order; directory entries are
`mkdir -p`'d, file entries get their parent chain created and are written
with `content || ''`.  Returns the project path. -/
def createProjectFiles (fs : FS) (t : Int) (projectId : Str)
    (fileTree : List (Str × FileEntry)) : Except Unit (FS × FsPath) :=
  let projectPath := joinStr PROJECTS_DIR projectId
  match mkdirRec fs projectPath with
  | .ok fs' => (createGo t projectPath fs' fileTree).map (fun fs'' => (fs'', projectPath))
  | .error e => .error e

/-- The `DELETE /api/project/:projectId` handler:
`fs.rm(projectPath, recursive, force)` then a 200 success body. -/
def deleteProjectHandler (fs : FS) (projectId : Str) : FS × Nat :=
  (rmrf fs (joinStr PROJECTS_DIR projectId), 200)

/-- The escaped destination `/app/generated_projects/evil.txt` of the
`../evil.txt` traversal entry. -/
def evilPath : FsPath := ["app".toList, "generated_projects".toList, "evil.txt".toList]

/-- C1: the source performs no traversal check: a `fileTree` entry whose
path contains `..` is joined, normalized and written; materialization
succeeds (no `PathTraversal` error), the escaped path holds a file, and
that path is not inside the returned project root. -/
theorem c1_traversal_write_escapes :
    ((createProjectFiles emptyFS 0 "p1".toList
        [("../evil.txt".toList, FileEntry.file (some "x".toList))]).toOption.map
      (fun r => (decide (IsFile r.1 evilPath), isPre r.2 evilPath)))
      = some (true, false) := by
  decide

/-- C8: deleting a project always reports success, removes every
directory and file under the project's path, is idempotent, and leaves
the filesystem untouched when the project does not exist. -/
theorem c8_delete_idempotent (fs : FS) (projectId : Str) :
    (deleteProjectHandler fs projectId).2 = 200
    ∧ (∀ q ∈ (deleteProjectHandler fs projectId).1.dirs,
        isPre (joinStr PROJECTS_DIR projectId) q = false)
    ∧ (∀ e ∈ (deleteProjectHandler fs projectId).1.files,
        isPre (joinStr PROJECTS_DIR projectId) e.1 = false)
    ∧ deleteProjectHandler (deleteProjectHandler fs projectId).1 projectId
        = deleteProjectHandler fs projectId
    ∧ ((∀ q ∈ fs.dirs, isPre (joinStr PROJECTS_DIR projectId) q = false) →
       (∀ e ∈ fs.files, isPre (joinStr PROJECTS_DIR projectId) e.1 = false) →
       (deleteProjectHandler fs projectId).1 = fs) := by
  refine ⟨rfl, ?_, ?_, ?_, ?_⟩
  · intro q hq
    simp only [deleteProjectHandler, rmrf, List.mem_filter, decide_eq_true_eq] at hq
    simpa using hq.2
  · intro e he
    simp only [deleteProjectHandler, rmrf, List.mem_filter, decide_eq_true_eq] at he
    simpa using he.2
  · simp only [deleteProjectHandler, rmrf, Prod.mk.injEq, and_true, FS.mk.injEq]
    constructor
    · apply List.filter_eq_self.mpr
      intro a ha
      exact (List.mem_filter.mp ha).2
    · apply List.filter_eq_self.mpr
      intro a ha
      exact (List.mem_filter.mp ha).2
  · intro hd hf
    cases fs with
    | mk d f =>
      simp only [deleteProjectHandler, rmrf, FS.mk.injEq]
      constructor
      · apply List.filter_eq_self.mpr
        intro a ha
        simpa using hd a ha
      · apply List.filter_eq_self.mpr
        intro a ha
        simpa using hf a ha

/-- C8 witness: deleting the nonexistent project `x` from the empty
filesystem succeeds and changes nothing. -/
theorem c8_delete_idempotent_witness :
    (deleteProjectHandler emptyFS "x".toList).1 = emptyFS
    ∧ (deleteProjectHandler emptyFS "x".toList).2 = 200 :=
  ⟨(c8_delete_idempotent emptyFS "x".toList).2.2.2.2
      (by intro q hq; simp [emptyFS] at hq)
      (by intro e he; simp [emptyFS] at he),
   (c8_delete_idempotent emptyFS "x".toList).1⟩

/-- Model of appending a suffix to the final segment of a path string,
as `` `${fullPath}.backup` `` does. -/
def appendToLastSeg : FsPath → Str → FsPath
  | [], suf => [suf]
  | [a], suf => [a ++ suf]
  | a :: b :: rest, suf => a :: appendToLastSeg (b :: rest) suf

/-- The try-block of the enhance/rewrite handlers, after the full path
and the backup path have been computed: read the file (404 when the read
fails), write the current content to the backup path, then overwrite the
file with the model-produced content. -/
def backupThenWrite (fs : FS) (fullPath backupPath : FsPath)
    (newContent : Str) (t : Int) : FS × Nat :=
  match lookupFile fs.files fullPath with
  | none => (fs, 404)
  | some (currentContent, _) =>
    match writeFile fs backupPath currentContent t with
    | .error _ => (fs, 404)
    | .ok fs1 =>
      match writeFile fs1 fullPath newContent t with
      | .error _ => (fs1, 404)
      | .ok fs2 => (fs2, 200)

/-- The `PUT /api/project/:projectId/enhance/*` handler's filesystem
effect: the backup path is the fixed sibling `` `${fullPath}.backup` ``.
The LLM's `enhancedContent` is a parameter, the LLM being an external
collaborator. -/
def enhanceApply (fs : FS) (projectId filePath : Str)
    (enhancedContent : Str) (t : Int) : FS × Nat :=
  backupThenWrite fs (joinStr (joinStr PROJECTS_DIR projectId) filePath)
    (appendToLastSeg (joinStr (joinStr PROJECTS_DIR projectId) filePath) ".backup".toList)
    enhancedContent t

/-- The `PUT /api/project/:projectId/rewrite/*` handler's filesystem
effect: identical to enhance except that the backup path carries a
`` `.backup.${Date.now()}` `` suffix (`intToStr` models number
stringification). -/
def rewriteApply (fs : FS) (projectId filePath : Str)
    (rewrittenContent : Str) (t : Int) (intToStr : Int → Str) : FS × Nat :=
  backupThenWrite fs (joinStr (joinStr PROJECTS_DIR projectId) filePath)
    (appendToLastSeg (joinStr (joinStr PROJECTS_DIR projectId) filePath)
      (".backup.".toList ++ intToStr t))
    rewrittenContent t

theorem lookup_setFile_self (files : List (FsPath × Str × Int)) (p : FsPath)
    (c : Str) (t : Int) : lookupFile (setFile files p c t) p = some (c, t) := by
  induction files with
  | nil => simp [setFile, lookupFile]
  | cons e rest ih =>
    by_cases h : e.1 = p
    · simp [setFile, h, lookupFile]
    · simp [setFile, h, lookupFile, ih]

theorem lookup_setFile_ne (files : List (FsPath × Str × Int)) {p q : FsPath}
    (c : Str) (t : Int) (h : q ≠ p) :
    lookupFile (setFile files p c t) q = lookupFile files q := by
  have hpq : ¬ p = q := fun hh => h hh.symm
  induction files with
  | nil => simp [setFile, lookupFile, hpq]
  | cons e rest ih =>
    obtain ⟨q1, c1, t1⟩ := e
    by_cases he : q1 = p
    · subst he
      simp [setFile, lookupFile, hpq]
    · simp only [setFile, if_neg he, lookupFile]
      rw [ih]

theorem appendToLastSeg_ne (p : FsPath) {suf : Str} (h : suf ≠ []) :
    appendToLastSeg p suf ≠ p := by
  induction p with
  | nil => simp [appendToLastSeg]
  | cons a rest ih =>
    cases rest with
    | nil =>
      simp only [appendToLastSeg, List.cons.injEq, ne_eq, not_and]
      intro ha
      exact absurd (by simpa using congrArg List.length ha) (by simpa using h)
    | cons b r =>
      simp only [appendToLastSeg, ne_eq, List.cons.injEq, not_and]
      intro _
      exact ih

theorem writeFile_ok {fs : FS} {p : FsPath} {c : Str} {t : Int} {fs' : FS}
    (h : writeFile fs p c t = .ok fs') :
    fs'.dirs = fs.dirs ∧ fs'.files = setFile fs.files p c t := by
  unfold writeFile at h
  split at h
  · exact Except.noConfusion h
  · split at h
    · exact Except.noConfusion h
    · split at h
      · exact Except.noConfusion h
      · injection h with h
        subst h
        exact ⟨rfl, rfl⟩

theorem backupThenWrite_ok {fs : FS} {full bk : FsPath} {nc : Str} {t : Int}
    {fsA : FS} (h : backupThenWrite fs full bk nc t = (fsA, 200)) :
    ∃ cur mt, lookupFile fs.files full = some (cur, mt)
      ∧ fsA.dirs = fs.dirs
      ∧ fsA.files = setFile (setFile fs.files bk cur t) full nc t := by
  unfold backupThenWrite at h
  split at h
  · exact absurd (congrArg Prod.snd h) (by simp)
  · rename_i cur mt hl
    split at h
    · exact absurd (congrArg Prod.snd h) (by simp)
    · rename_i fs1 hw1
      split at h
      · exact absurd (congrArg Prod.snd h) (by simp)
      · rename_i fs2 hw2
        have hA : fs2 = fsA := (Prod.mk.injEq _ _ _ _ ▸ h).1
        subst hA
        refine ⟨cur, mt, hl, ?_, ?_⟩
        · rw [(writeFile_ok hw2).1, (writeFile_ok hw1).1]
        · rw [(writeFile_ok hw2).2, (writeFile_ok hw1).2]

/-- C2 (amended): both sequential enhance calls write their backup to the
same fixed `<file>.backup` path, so after the second call that single
backup holds the first call's enhanced content (the original content's
backup is overwritten), and the live file holds the second content. -/
theorem c2_enhance_backup_overwrite (fs : FS) (projectId filePath c1 c2 : Str)
    (t1 t2 : Int) (fsA fsB : FS)
    (h1 : enhanceApply fs projectId filePath c1 t1 = (fsA, 200))
    (h2 : enhanceApply fsA projectId filePath c2 t2 = (fsB, 200)) :
    lookupFile fsB.files
        (appendToLastSeg (joinStr (joinStr PROJECTS_DIR projectId) filePath) ".backup".toList)
      = some (c1, t2)
    ∧ lookupFile fsB.files (joinStr (joinStr PROJECTS_DIR projectId) filePath)
      = some (c2, t2) := by
  unfold enhanceApply at h1 h2
  obtain ⟨cur1, mt1, hl1, _, hf1⟩ := backupThenWrite_ok h1
  obtain ⟨cur2, mt2, hl2, _, hf2⟩ := backupThenWrite_ok h2
  have hbkne : appendToLastSeg (joinStr (joinStr PROJECTS_DIR projectId) filePath)
      ".backup".toList ≠ joinStr (joinStr PROJECTS_DIR projectId) filePath :=
    appendToLastSeg_ne _ (by decide)
  have hcur2 : cur2 = c1 := by
    rw [hf1, lookup_setFile_self] at hl2
    simp only [Option.some.injEq, Prod.mk.injEq] at hl2
    exact hl2.1.symm
  constructor
  · rw [hf2, lookup_setFile_ne _ _ _ hbkne, lookup_setFile_self, hcur2]
  · rw [hf2]
    exact lookup_setFile_self _ _ _ _

/-- Project directory `/app/generated_projects/p1` used in the enhance
scenario. -/
def c2projPath : FsPath := joinStr PROJECTS_DIR "p1".toList

/-- The enhanced file `/app/generated_projects/p1/a.js`. -/
def c2filePath : FsPath := joinStr c2projPath "a.js".toList

/-- Starting state of the enhance scenario: the project directory chain
and one file `a.js` with content `v0`. -/
def c2fs0 : FS := ⟨prefixesNE c2projPath, [(c2filePath, "v0".toList, 0)]⟩

/-- State after the first enhance (`v0` → `v1`, at time 1). -/
def c2fsA : FS := (enhanceApply c2fs0 "p1".toList "a.js".toList "v1".toList 1).1

/-- State after the second enhance (`v1` → `v2`, at time 2). -/
def c2fsB : FS := (enhanceApply c2fsA "p1".toList "a.js".toList "v2".toList 2).1

/-- C2 counterexample: two sequential successful enhance operations on
`a.js` leave exactly one backup artifact, `a.js.backup` holding `v1` —
the first operation's backup of `v0` has been overwritten, contradicting
the claim that each operation produces a distinct backup. -/
theorem c2_counterexample :
    (enhanceApply c2fs0 "p1".toList "a.js".toList "v1".toList 1).2 = 200
    ∧ (enhanceApply c2fsA "p1".toList "a.js".toList "v2".toList 2).2 = 200
    ∧ c2fsB.files = [(c2filePath, "v2".toList, 2),
        (appendToLastSeg c2filePath ".backup".toList, "v1".toList, 2)] := by
  decide

/-- C2 witness: the amended theorem applied to the concrete two-enhance
scenario. -/
theorem c2_enhance_backup_overwrite_witness :
    lookupFile c2fsB.files
        (appendToLastSeg (joinStr (joinStr PROJECTS_DIR "p1".toList) "a.js".toList)
          ".backup".toList) = some ("v1".toList, 2)
    ∧ lookupFile c2fsB.files (joinStr (joinStr PROJECTS_DIR "p1".toList) "a.js".toList)
      = some ("v2".toList, 2) :=
  c2_enhance_backup_overwrite c2fs0 "p1".toList "a.js".toList "v1".toList "v2".toList
    1 2 c2fsA c2fsB (by decide) (by decide)

/-- The `GET /api/project/:projectId/file/*` handler (Groq variant):
joins the storage root, the project id and the wildcard path; a
directory yields status 400, a missing path 404, and a file 200 with
content, size (modelled as the character count) and modified time. -/
def getFileHandler (fs : FS) (projectId filePath : Str) : Nat × Option (Str × Nat × Int) :=
  if IsDir fs (joinStr (joinStr PROJECTS_DIR projectId) filePath) then (400, none)
  else
    match lookupFile fs.files (joinStr (joinStr PROJECTS_DIR projectId) filePath) with
    | some (c, mt) => (200, some (c, c.length, mt))
    | none => (404, none)

/-- The directory `/app/generated_projects/p1/src` of the read-a-directory
scenario. -/
def c3dirPath : FsPath := joinStr (joinStr PROJECTS_DIR "p1".toList) "src".toList

/-- A filesystem containing only that directory chain. -/
def c3fs : FS := ⟨prefixesNE c3dirPath, []⟩

/-- C3 counterexample: requesting the path `src`, which names a
directory, returns status 400 — not the 404 the claim requires. -/
theorem c3_counterexample :
    getFileHandler c3fs "p1".toList "src".toList = (400, none)
    ∧ (getFileHandler c3fs "p1".toList "src".toList).1 ≠ 404 := by
  decide

/-- C3 (amended): the file-read handler returns 400 when the path names
a directory, 404 when it does not exist, and otherwise the file's
content, size and modified time with status 200. -/
theorem c3_read_file_response (fs : FS) (projectId filePath : Str) :
    (IsDir fs (joinStr (joinStr PROJECTS_DIR projectId) filePath) →
      getFileHandler fs projectId filePath = (400, none))
    ∧ (¬ IsDir fs (joinStr (joinStr PROJECTS_DIR projectId) filePath) →
       lookupFile fs.files (joinStr (joinStr PROJECTS_DIR projectId) filePath) = none →
       getFileHandler fs projectId filePath = (404, none))
    ∧ (∀ c mt, ¬ IsDir fs (joinStr (joinStr PROJECTS_DIR projectId) filePath) →
       lookupFile fs.files (joinStr (joinStr PROJECTS_DIR projectId) filePath) = some (c, mt) →
       getFileHandler fs projectId filePath = (200, some (c, c.length, mt))) := by
  refine ⟨?_, ?_, ?_⟩
  · intro h
    simp [getFileHandler, h]
  · intro h hl
    simp [getFileHandler, h, hl]
  · intro c mt h hl
    simp [getFileHandler, h, hl]

/-- The file `/app/generated_projects/p1/a.js` of the read-a-file
scenario. -/
def c3wfile : FsPath := joinStr (joinStr PROJECTS_DIR "p1".toList) "a.js".toList

/-- A filesystem with the project directory chain and that one file. -/
def c3wfs : FS := ⟨prefixesNE (joinStr PROJECTS_DIR "p1".toList), [(c3wfile, "x".toList, 5)]⟩

/-- C3 witness: reading the existing one-character file `a.js` returns
its content, size 1 and modified time 5. -/
theorem c3_read_file_response_witness :
    getFileHandler c3wfs "p1".toList "a.js".toList = (200, some ("x".toList, 1, 5)) :=
  (c3_read_file_response c3wfs "p1".toList "a.js".toList).2.2 "x".toList 5
    (by decide) (by decide)

/-- Index of the first occurrence of `pat` in a string, as
`String.prototype.match` locates its leftmost match. -/
def firstOccurFrom (pat : Str) : Str → Option Nat
  | [] => if pat.isEmpty then some 0 else none
  | c :: rest =>
    if pat.isPrefixOf (c :: rest) then some 0
    else (firstOccurFrom pat rest).map (· + 1)

/-- `String.prototype.includes` on our string model. -/
def containsTok (t pat : Str) : Bool := (firstOccurFrom pat t).isSome

/-- JS regex `\s` on the characters the source can meet. -/
def isJsWs (c : Char) : Bool :=
  (c == ' ') || (c == '\t') || (c == '\n') || (c == '\r') || (c == '\x0b') || (c == '\x0c')

/-- Strip `\s*` from both ends, the effect of the greedy whitespace
runs flanking the lazy capture group in the fence regexes. -/
def trimJs (t : Str) : Str := ((t.dropWhile isJsWs).reverse.dropWhile isJsWs).reverse

/-- The opening token of a json-tagged fence. -/
def jsonFenceTok : Str := "```json".toList

/-- The fence token. -/
def fenceTok : Str := "```".toList

/-- Leftmost match group of `` /```json\s*([\s\S]*?)\s*```/ ``: the
trimmed text between the first ` ```json ` and the next ` ``` ` after it
(none when no closing fence follows). -/
def fencedJsonGroup (t : Str) : Option Str :=
  match firstOccurFrom jsonFenceTok t with
  | none => none
  | some i =>
    match firstOccurFrom fenceTok (t.drop (i + 7)) with
    | none => none
    | some k => some (trimJs ((t.drop (i + 7)).take k))

/-- Leftmost match group of `` /```\s*([\s\S]*?)\s*```/ ``. -/
def fencedAnyGroup (t : Str) : Option Str :=
  match firstOccurFrom fenceTok t with
  | none => none
  | some i =>
    match firstOccurFrom fenceTok (t.drop (i + 3)) with
    | none => none
    | some k => some (trimJs ((t.drop (i + 3)).take k))

/-- Index of the last occurrence of a character. -/
def lastIdxOf (c : Char) (t : Str) : Option Nat :=
  (firstOccurFrom [c] t.reverse).map (fun i => t.length - 1 - i)

/-- Leftmost match of the greedy `/\{[\s\S]*\}/`: from the first `{` to
the last `}`, when the latter comes after the former. -/
def braceSpan (t : Str) : Option Str :=
  match firstOccurFrom ['{'] t, lastIdxOf '}' t with
  | some i, some j => if i < j then some ((t.drop i).take (j - i + 1)) else none
  | _, _ => none

/-- The candidate-selection logic of
`ProjectGenerator.generateProjectStructure` (lines 230-247): json fence
token present → its regex group or, failing that, the whole text; else
fence token present → likewise; else the greedy brace span or the whole
text. -/
def selectJsonContent (content : Str) : Str :=
  if containsTok content jsonFenceTok then
    match fencedJsonGroup content with
    | some g => g
    | none => content
  else if containsTok content fenceTok then
    match fencedAnyGroup content with
    | some g => g
    | none => content
  else
    match braceSpan content with
    | some m => m
    | none => content

/-- Follows the claim's words, not the source: (1) the first json-tagged
fenced block's interior when one exists, (2) else the first fenced
block's interior, (3) else the first-`{`-to-last-`}` substring (none when
no case applies). -/
def claimSelect (t : Str) : Option Str :=
  match fencedJsonGroup t with
  | some g => some g
  | none =>
    match fencedAnyGroup t with
    | some g => some g
    | none => braceSpan t

/-- JSON values, with numbers kept as their validated lexemes. -/
inductive Json where
  | null : Json
  | bool : Bool → Json
  | num : Str → Json
  | str : Str → Json
  | arr : List Json → Json
  | obj : List (Str × Json) → Json

/-- JSON insignificant whitespace. -/
def isJsonWs (c : Char) : Bool :=
  (c == ' ') || (c == '\t') || (c == '\n') || (c == '\r')

/-- Value of one hexadecimal digit. -/
def hexVal (c : Char) : Option Nat :=
  if '0' ≤ c ∧ c ≤ '9' then some (c.toNat - '0'.toNat)
  else if 'a' ≤ c ∧ c ≤ 'f' then some (c.toNat - 'a'.toNat + 10)
  else if 'A' ≤ c ∧ c ≤ 'F' then some (c.toNat - 'A'.toNat + 10)
  else none

/-- Single-character JSON string escapes. -/
def escChar (c : Char) : Option Char :=
  if c = '"' then some '"'
  else if c = '\\' then some '\\'
  else if c = '/' then some '/'
  else if c = 'b' then some '\x08'
  else if c = 'f' then some '\x0c'
  else if c = 'n' then some '\n'
  else if c = 'r' then some '\r'
  else if c = 't' then some '\t'
  else none

/-- Body of a JSON string after the opening quote: returns the decoded
characters and the remaining input past the closing quote. -/
def parseStrBody : Nat → Str → Option (Str × Str)
  | 0, _ => none
  | _, [] => none
  | fuel + 1, c :: rest =>
    if c = '"' then some ([], rest)
    else if c = '\\' then
      match rest with
      | [] => none
      | e :: rest2 =>
        if e = 'u' then
          match rest2 with
          | h1 :: h2 :: h3 :: h4 :: rest3 =>
            match hexVal h1, hexVal h2, hexVal h3, hexVal h4 with
            | some a, some b, some c2, some d =>
              (parseStrBody fuel rest3).map
                (fun r => (Char.ofNat (((a * 16 + b) * 16 + c2) * 16 + d) :: r.1, r.2))
            | _, _, _, _ => none
          | _ => none
        else
          match escChar e with
          | some ch => (parseStrBody fuel rest2).map (fun r => (ch :: r.1, r.2))
          | none => none
    else (parseStrBody fuel rest).map (fun r => (c :: r.1, r.2))

/-- A JSON number lexeme: optional sign, integer part without a stray
leading zero, optional fraction, optional exponent. -/
def parseNum (t : Str) : Option (Str × Str) :=
  let sr : Str × Str :=
    match t with
    | '-' :: r => (['-'], r)
    | _ => ([], t)
  match sr.2 with
  | [] => none
  | c :: _ =>
    if ¬ c.isDigit then none
    else
      let intDigits := sr.2.takeWhile Char.isDigit
      let t2 := sr.2.dropWhile Char.isDigit
      if intDigits.length > 1 ∧ intDigits.headD '0' = '0' then none
      else
        let fr : Str × Str :=
          match t2 with
          | '.' :: r =>
            let ds := r.takeWhile Char.isDigit
            if ds = [] then ([], t2)
            else ('.' :: ds, r.dropWhile Char.isDigit)
          | _ => ([], t2)
        let er : Str × Str :=
          match fr.2 with
          | e :: r =>
            if e = 'e' ∨ e = 'E' then
              let sg : Str × Str :=
                match r with
                | s :: r2 => if s = '+' ∨ s = '-' then ([s], r2) else ([], r)
                | [] => ([], r)
              let ds := sg.2.takeWhile Char.isDigit
              if ds = [] then ([], fr.2)
              else (e :: (sg.1 ++ ds), sg.2.dropWhile Char.isDigit)
            else ([], fr.2)
          | [] => ([], fr.2)
        some (sr.1 ++ intDigits ++ fr.1 ++ er.1, er.2)

/-- Token of the `null` literal. -/
def jsonNullTok : Str := "null".toList

/-- Token of the `true` literal. -/
def jsonTrueTok : Str := "true".toList

/-- Token of the `false` literal. -/
def jsonFalseTok : Str := "false".toList

mutual

/-- One JSON value, leading whitespace allowed. -/
def parseVal : Nat → Str → Option (Json × Str)
  | 0, _ => none
  | fuel + 1, t0 =>
    let t := t0.dropWhile isJsonWs
    if jsonNullTok.isPrefixOf t then some (.null, t.drop 4)
    else if jsonTrueTok.isPrefixOf t then some (.bool true, t.drop 4)
    else if jsonFalseTok.isPrefixOf t then some (.bool false, t.drop 5)
    else
      match t with
      | '"' :: rest => (parseStrBody fuel rest).map (fun r => (.str r.1, r.2))
      | '{' :: rest => parseObjBody fuel (rest.dropWhile isJsonWs)
      | '[' :: rest => parseArrBody fuel (rest.dropWhile isJsonWs)
      | _ => (parseNum t).map (fun r => (.num r.1, r.2))

/-- Object body after `{` (whitespace skipped). -/
def parseObjBody : Nat → Str → Option (Json × Str)
  | 0, _ => none
  | fuel + 1, t =>
    match t with
    | '}' :: rest => some (.obj [], rest)
    | _ => parseMembers fuel t []

/-- Nonempty member list of an object. -/
def parseMembers : Nat → Str → List (Str × Json) → Option (Json × Str)
  | 0, _, _ => none
  | fuel + 1, t, acc =>
    match t with
    | '"' :: rest =>
      match parseStrBody fuel rest with
      | none => none
      | some (key, r1) =>
        match r1.dropWhile isJsonWs with
        | ':' :: r2 =>
          match parseVal fuel r2 with
          | none => none
          | some (v, r3) =>
            match r3.dropWhile isJsonWs with
            | ',' :: r4 => parseMembers fuel (r4.dropWhile isJsonWs) (acc ++ [(key, v)])
            | '}' :: r4 => some (.obj (acc ++ [(key, v)]), r4)
            | _ => none
        | _ => none
    | _ => none

/-- Array body after `[` (whitespace skipped). -/
def parseArrBody : Nat → Str → Option (Json × Str)
  | 0, _ => none
  | fuel + 1, t =>
    match t with
    | ']' :: rest => some (.arr [], rest)
    | _ => parseItems fuel t []

/-- Nonempty item list of an array. -/
def parseItems : Nat → Str → List Json → Option (Json × Str)
  | 0, _, _ => none
  | fuel + 1, t, acc =>
    match parseVal fuel t with
    | none => none
    | some (v, r1) =>
      match r1.dropWhile isJsonWs with
      | ',' :: r2 => parseItems fuel r2 (acc ++ [v])
      | ']' :: r2 => some (.arr (acc ++ [v]), r2)
      | _ => none

end

/-- `JSON.parse`: one value, then only trailing whitespace. -/
def jsonParse (t : Str) : Option Json :=
  match parseVal (2 * t.length + 4) t with
  | some (v, rest) => if rest.dropWhile isJsonWs = [] then some v else none
  | none => none

/-- The fixed parse-failure message thrown by
`generateProjectStructure`. -/
def malformedMsg : Str := "Invalid JSON response from AI model".toList

/-- Lines 230-255 of the generator: select the candidate substring, parse
it, and on failure log the offending substring (`console.error`, the
second component) and throw the fixed message. -/
def extractJson (content : Str) : Except Str Json × List Str :=
  match jsonParse (selectJsonContent content) with
  | some v => (.ok v, [])
  | none => (.error malformedMsg, [selectJsonContent content])

/-- The candidate selection as the counterexample forces it to be
amended: the fence cases are triggered by mere containment of the
opening token, falling back to the whole raw text when the block is not
closed; the brace span applies only when no fence token occurs at all. -/
def amendedSelect (t : Str) : Str :=
  match fencedJsonGroup t with
  | some g => g
  | none =>
    if containsTok t jsonFenceTok then t
    else
      match fencedAnyGroup t with
      | some g => g
      | none =>
        if containsTok t fenceTok then t
        else
          match braceSpan t with
          | some m => m
          | none => t

/-- C4 counterexample: on text with a single unclosed fence followed by a
JSON object, the claim's precedence (no fenced block, so the
first-`{`-to-last-`}` substring) picks the object, but the source selects
the entire raw text because `includes('```')` is true. -/
theorem c4_counterexample :
    claimSelect "``` \x7b\"a\":1\x7d".toList = some "\x7b\"a\":1\x7d".toList
    ∧ selectJsonContent "``` \x7b\"a\":1\x7d".toList = "``` \x7b\"a\":1\x7d".toList
    ∧ "``` \x7b\"a\":1\x7d".toList ≠ "\x7b\"a\":1\x7d".toList := by
  decide

/-- C4 (amended): the selection equals the amended precedence:
closed json block interior; else whole text if ```json occurs; else
closed block interior; else whole text if ``` occurs; else the greedy
brace span; else the whole text. -/
theorem c4_select_precedence (t : Str) : selectJsonContent t = amendedSelect t := by
  by_cases hj : containsTok t jsonFenceTok = true
  · cases hg : fencedJsonGroup t <;>
      simp [selectJsonContent, amendedSelect, hj, hg]
  · have hgj : fencedJsonGroup t = none := by
      unfold containsTok at hj
      unfold fencedJsonGroup
      cases ho : firstOccurFrom jsonFenceTok t
      · rfl
      · rw [ho] at hj; simp at hj
    by_cases hf : containsTok t fenceTok = true
    · cases hga : fencedAnyGroup t <;>
        simp [selectJsonContent, amendedSelect, hj, hf, hgj, hga]
    · have hga : fencedAnyGroup t = none := by
        unfold containsTok at hf
        unfold fencedAnyGroup
        cases ho : firstOccurFrom fenceTok t
        · rfl
        · rw [ho] at hf; simp at hf
      cases hb : braceSpan t <;>
        simp [selectJsonContent, amendedSelect, hj, hf, hgj, hga, hb]

/-- The error component of an extraction result. -/
def errOf (r : Except Str Json × List Str) : Option Str :=
  match r.1 with
  | .error e => some e
  | .ok _ => none

/-- C5 counterexample: on text with no JSON-looking substring the thrown
error is the fixed message, which does not include the offending
substring (the substring is only logged). -/
theorem c5_counterexample :
    errOf (extractJson "no json here".toList) = some malformedMsg
    ∧ containsTok malformedMsg "no json here".toList = false := by
  decide

/-- C5 (amended): whenever extraction fails, the error is exactly the
fixed `MalformedResponse` message — never another error — and the
selected offending substring appears in the console log, not in the
error itself. -/
theorem c5_extract_error_shape (content : Str) (e : Str)
    (h : (extractJson content).1 = .error e) :
    e = malformedMsg ∧ (extractJson content).2 = [selectJsonContent content] := by
  unfold extractJson at h ⊢
  cases hp : jsonParse (selectJsonContent content) with
  | none =>
    simp only [hp] at h ⊢
    refine ⟨?_, trivial⟩
    exact ((Except.error.injEq _ _).mp h).symm
  | some v =>
    simp only [hp] at h
    exact Except.noConfusion h

/-- C5 witness: the amended theorem applied to the parse-failing input
`no json here`. -/
theorem c5_extract_error_shape_witness :
    malformedMsg = malformedMsg
    ∧ (extractJson "no json here".toList).2 = [selectJsonContent "no json here".toList] :=
  c5_extract_error_shape "no json here".toList malformedMsg rfl

/-- The fields of `project-metadata.json` that the listing reads. -/
structure ProjectMeta where
  pid : Str
  projectName : Str
  description : Str
  technology : Str
  framework : Str
  database : Str
  generated : Int
  model : Str
deriving DecidableEq

/-- One summary record pushed by the `GET /api/projects` handler. -/
structure ProjectSummary where
  pid : Str
  name : Str
  description : Str
  technology : Str
  framework : Str
  database : Str
  generated : Int
  model : Str
deriving DecidableEq

/-- The summary object built from a metadata record. -/
def summarize (m : ProjectMeta) : ProjectSummary :=
  ⟨m.pid, m.projectName, m.description, m.technology, m.framework, m.database,
    m.generated, m.model⟩

/-- One child of the storage root as the listing sees it: its name, and
the parsed metadata when `project-metadata.json` is present and valid
(`none` models both a missing and a corrupt metadata file, which the
handler's catch block skips). -/
structure DirEnt where
  name : Str
  meta : Option ProjectMeta
deriving DecidableEq

/-- `String.prototype.endsWith`. -/
def endsWithL (t suf : Str) : Bool := suf.reverse.isPrefixOf t.reverse

/-- Stable descending insertion: `x` goes before the first element it is
not strictly older than, keeping earlier elements of equal timestamp in
front. -/
def insertByGenerated (x : ProjectSummary) : List ProjectSummary → List ProjectSummary
  | [] => [x]
  | y :: ys =>
    if y.generated ≤ x.generated then x :: y :: ys else y :: insertByGenerated x ys

/-- Stable sort by generation timestamp descending, the model of JS
`Array.prototype.sort` (stable since ES2019) with comparator
`(a, b) => new Date(b.generated) - new Date(a.generated)`. -/
def sortByGeneratedDesc : List ProjectSummary → List ProjectSummary
  | [] => []
  | x :: xs => insertByGenerated x (sortByGeneratedDesc xs)

/-- The `GET /api/projects` handler: scan the root's children, skip
`.zip` entries and any entry without readable metadata, summarize the
rest, and sort newest-first. -/
def listProjects (entries : List DirEnt) : List ProjectSummary :=
  sortByGeneratedDesc
    (((entries.filter (fun e => ¬ endsWithL e.name ".zip".toList)).filterMap
        DirEnt.meta).map summarize)

theorem mem_insertByGenerated {x z : ProjectSummary} :
    ∀ {l}, z ∈ insertByGenerated x l ↔ z = x ∨ z ∈ l := by
  intro l
  induction l with
  | nil => simp [insertByGenerated]
  | cons y ys ih =>
    by_cases hc : y.generated ≤ x.generated
    · simp [insertByGenerated, hc, List.mem_cons]
    · simp only [insertByGenerated, if_neg hc, List.mem_cons, ih]
      tauto

theorem insertByGenerated_pairwise (x : ProjectSummary) :
    ∀ {l}, l.Pairwise (fun a b => b.generated ≤ a.generated) →
      (insertByGenerated x l).Pairwise (fun a b => b.generated ≤ a.generated) := by
  intro l h
  induction l with
  | nil => simp [insertByGenerated]
  | cons y ys ih =>
    rcases List.pairwise_cons.mp h with ⟨hy, hys⟩
    by_cases hc : y.generated ≤ x.generated
    · simp only [insertByGenerated, if_pos hc]
      refine List.pairwise_cons.mpr ⟨?_, h⟩
      intro z hz
      rcases List.mem_cons.mp hz with rfl | hz
      · exact hc
      · exact le_trans (hy z hz) hc
    · simp only [insertByGenerated, if_neg hc]
      refine List.pairwise_cons.mpr ⟨?_, ih hys⟩
      intro z hz
      rcases mem_insertByGenerated.mp hz with rfl | hz
      · exact le_of_not_le hc
      · exact hy z hz

theorem sortByGeneratedDesc_pairwise :
    ∀ l, (sortByGeneratedDesc l).Pairwise (fun a b => b.generated ≤ a.generated) := by
  intro l
  induction l with
  | nil => simp [sortByGeneratedDesc]
  | cons x xs ih => exact insertByGenerated_pairwise x ih

theorem filter_insertByGenerated (g : Int) (x : ProjectSummary) :
    ∀ l : List ProjectSummary,
      (insertByGenerated x l).filter (fun s => s.generated = g)
      = if x.generated = g then x :: l.filter (fun s => s.generated = g)
        else l.filter (fun s => s.generated = g) := by
  intro l
  induction l with
  | nil => by_cases hx : x.generated = g <;> simp [insertByGenerated, hx]
  | cons y ys ih =>
    by_cases hc : y.generated ≤ x.generated
    · simp only [insertByGenerated, if_pos hc]
      by_cases hx : x.generated = g <;> by_cases hy : y.generated = g <;>
        simp [List.filter_cons, hx, hy]
    · simp only [insertByGenerated, if_neg hc]
      by_cases hy : y.generated = g
      · have hx : ¬ x.generated = g := fun hxx => hc (le_of_eq (hy.trans hxx.symm))
        simp [List.filter_cons, hy, hx, ih]
      · by_cases hx : x.generated = g <;> simp [List.filter_cons, hy, hx, ih]

theorem filter_sortByGeneratedDesc (g : Int) :
    ∀ l, (sortByGeneratedDesc l).filter (fun s => s.generated = g)
      = l.filter (fun s => s.generated = g) := by
  intro l
  induction l with
  | nil => rfl
  | cons x xs ih =>
    simp only [sortByGeneratedDesc, filter_insertByGenerated, ih, List.filter_cons]
    by_cases hx : x.generated = g <;> simp [hx]

/-- A metadata record for the three-project scenario. -/
def c6meta (pid : Str) (g : Int) : ProjectMeta :=
  ⟨pid, "n".toList, "d".toList, "t".toList, "f".toList, "db".toList, g, "m".toList⟩

/-- Scan of the storage root for the scenario: project with timestamp T1
first, then a zip artifact, a corrupt entry, T3, and T2. -/
def c6entries : List DirEnt :=
  [⟨"a1".toList, some (c6meta "a1".toList 1)⟩,
   ⟨"x.zip".toList, none⟩,
   ⟨"bad".toList, none⟩,
   ⟨"a3".toList, some (c6meta "a3".toList 3)⟩,
   ⟨"a2".toList, some (c6meta "a2".toList 2)⟩]

/-- C6: the listing output is sorted by generation timestamp descending;
for every timestamp its records appear exactly as in the filtered scan
order (so ties keep scan order and corrupt or `.zip` entries are only
skipped, never fail the listing); and the concrete T1 < T2 < T3 scenario
lists [T3, T2, T1]. -/
theorem c6_list_sorted_stable :
    (∀ entries : List DirEnt,
      (listProjects entries).Pairwise (fun a b => b.generated ≤ a.generated)
      ∧ ∀ g : Int,
          (listProjects entries).filter (fun s => s.generated = g)
          = (((entries.filter (fun e => ¬ endsWithL e.name ".zip".toList)).filterMap
              DirEnt.meta).map summarize).filter (fun s => s.generated = g))
    ∧ listProjects c6entries
      = [summarize (c6meta "a3".toList 3), summarize (c6meta "a2".toList 2),
         summarize (c6meta "a1".toList 1)] := by
  refine ⟨fun entries => ⟨sortByGeneratedDesc_pairwise _, fun g => filter_sortByGeneratedDesc g _⟩, ?_⟩
  decide

/-- JS object property read on an object literal (keys are unique in a
constructed object, so first match is the property). -/
def objGet : List (Str × Json) → Str → Option Json
  | [], _ => none
  | (k, v) :: rest, key => if k = key then some v else objGet rest key

/-- JS property assignment during object-literal construction: an
existing key's value is replaced in place, a new key is appended. -/
def objSet : List (Str × Json) → Str → Json → List (Str × Json)
  | [], key, v => [(key, v)]
  | (k, w) :: rest, key, v =>
    if k = key then (key, v) :: rest else (k, w) :: objSet rest key v

/-- Spreading `over` into an object literal that already holds `base`:
each own property of `over`, in order, is assigned. -/
def spreadInto (base over : List (Str × Json)) : List (Str × Json) :=
  over.foldl (fun acc kv => objSet acc kv.1 kv.2) base

/-- The metadata record of `POST /api/generate`:
`{id, prompt, model, generated, ...projectData}` — the untrusted parsed
descriptor is spread after the generated fields. -/
def buildMetadata (projectId prompt model generated : Str)
    (projectData : List (Str × Json)) : List (Str × Json) :=
  spreadInto
    [("id".toList, .str projectId), ("prompt".toList, .str prompt),
     ("model".toList, .str model), ("generated".toList, .str generated)]
    projectData

theorem objGet_objSet_self (base : List (Str × Json)) (k : Str) (v : Json) :
    objGet (objSet base k v) k = some v := by
  induction base with
  | nil => simp [objSet, objGet]
  | cons e rest ih =>
    obtain ⟨k1, v1⟩ := e
    by_cases h : k1 = k
    · simp [objSet, h, objGet]
    · simp [objSet, h, objGet, ih]

theorem objGet_objSet_ne (base : List (Str × Json)) {k key : Str} (v : Json)
    (h : k ≠ key) : objGet (objSet base k v) key = objGet base key := by
  induction base with
  | nil => simp [objSet, objGet, h]
  | cons e rest ih =>
    obtain ⟨k1, v1⟩ := e
    by_cases h1 : k1 = k
    · subst h1
      simp [objSet, objGet, h]
    · simp only [objSet, if_neg h1, objGet]
      rw [ih]

theorem objGet_spread_of_notmem {k : Str} :
    ∀ {over base : List (Str × Json)}, (∀ kv ∈ over, kv.1 ≠ k) →
      objGet (spreadInto base over) k = objGet base k := by
  intro over
  induction over with
  | nil => intro base _; rfl
  | cons kv rest ih =>
    intro base h
    have h1 : ∀ e ∈ rest, e.1 ≠ k := fun e he => h e (List.mem_cons_of_mem kv he)
    have h2 : kv.1 ≠ k := h kv (List.mem_cons_self kv rest)
    calc objGet (spreadInto base (kv :: rest)) k
        = objGet (spreadInto (objSet base kv.1 kv.2) rest) k := rfl
      _ = objGet (objSet base kv.1 kv.2) k := ih h1
      _ = objGet base k := objGet_objSet_ne _ _ h2

theorem objGet_spread {over : List (Str × Json)} {k : Str} {v : Json} :
    (over.map Prod.fst).Nodup → objGet over k = some v →
    ∀ base, objGet (spreadInto base over) k = some v := by
  induction over with
  | nil => intro _ h; exact absurd h (by simp [objGet])
  | cons kv rest ih =>
    intro hnd h base
    obtain ⟨k1, v1⟩ := kv
    rw [List.map_cons] at hnd
    rcases List.nodup_cons.mp hnd with ⟨hk0, hndrest⟩
    have hk1 : k1 ∉ List.map Prod.fst rest := hk0
    have hstep : spreadInto base ((k1, v1) :: rest) = spreadInto (objSet base k1 v1) rest := rfl
    by_cases hk : k1 = k
    · subst hk
      have hv : v1 = v := by
        simpa [objGet] using h
      subst hv
      rw [hstep, objGet_spread_of_notmem ?_, objGet_objSet_self]
      intro e he hek
      apply hk1
      rw [← hek]
      exact List.mem_map_of_mem Prod.fst he
    · have h' : objGet rest k = some v := by
        simpa [objGet, hk] using h
      rw [hstep]
      exact ih hndrest h' (objSet base k1 v1)

theorem createProjectFiles_path {fs : FS} {t : Int} {pid : Str}
    {tree : List (Str × FileEntry)} {fs' : FS} {pp : FsPath}
    (h : createProjectFiles fs t pid tree = .ok (fs', pp)) :
    pp = joinStr PROJECTS_DIR pid := by
  simp only [createProjectFiles] at h
  split at h
  · rename_i fs1 hmk
    cases hcg : createGo t (joinStr PROJECTS_DIR pid) fs1 tree with
    | ok fs2 =>
      rw [hcg] at h
      simp only [Except.map] at h
      injection h with h2
      exact (congrArg Prod.snd h2).symm
    | error e =>
      rw [hcg] at h
      simp only [Except.map] at h
      exact Except.noConfusion h
  · exact Except.noConfusion h

/-- C9: because the descriptor is spread after the generated fields,
any key the descriptor supplies (in particular `id`, `prompt`, `model`,
`generated`) ends up in the stored `project-metadata.json` with the
descriptor's value — which `get`/`list` then report — while the on-disk
directory created for the project is still named by the generated
identifier. -/
theorem c9_descriptor_overwrites_metadata (projectId prompt model generated : Str)
    (projectData : List (Str × Json)) (k : Str) (v : Json)
    (hnd : (projectData.map Prod.fst).Nodup)
    (hk : objGet projectData k = some v) :
    objGet (buildMetadata projectId prompt model generated projectData) k = some v
    ∧ ∀ (fs : FS) (t : Int) (tree : List (Str × FileEntry)) (fs' : FS) (pp : FsPath),
        createProjectFiles fs t projectId tree = .ok (fs', pp) →
        pp = joinStr PROJECTS_DIR projectId := by
  exact ⟨objGet_spread hnd hk _, fun fs t tree fs' pp h => createProjectFiles_path h⟩

/-- C9 witness: a descriptor carrying `id: "evil"` makes the stored
metadata's `id` equal `"evil"`, while materialization still returns the
directory of the generated id `p1`. -/
theorem c9_descriptor_overwrites_metadata_witness :
    objGet (buildMetadata "p1".toList "make".toList "m".toList "2024".toList
        [("id".toList, Json.str "evil".toList)]) "id".toList
      = some (Json.str "evil".toList)
    ∧ joinStr PROJECTS_DIR "p1".toList
      = ["app".toList, "generated_projects".toList, "p1".toList] :=
  ⟨(c9_descriptor_overwrites_metadata "p1".toList "make".toList "m".toList "2024".toList
      [("id".toList, Json.str "evil".toList)] "id".toList (Json.str "evil".toList)
      (by decide) rfl).1,
   by decide⟩

/-- The options object of `GroqClient.chat`: each field is `none` when
absent from the caller's object (JS `undefined`). -/
structure ChatOptions where
  temperature : Option ℚ
  maxTokens : Option ℚ
  top_p : Option ℚ
deriving DecidableEq

/-- JS `v || d` on a number-or-undefined value: the default applies when
the value is absent or equals the falsy 0. -/
def jsOrNum (v : Option ℚ) (d : ℚ) : ℚ :=
  match v with
  | none => d
  | some x => if x = 0 then d else x

/-- The model registry `AVAILABLE_MODELS` of the Groq variant. -/
def AVAILABLE_MODELS : List (Str × Str) :=
  [("llama-4-scout".toList, "meta-llama/llama-4-scout-17b-16e-instruct".toList),
   ("llama-3.3-70b".toList, "llama-3.3-70b-versatile".toList),
   ("mixtral-8x7b".toList, "mixtral-8x7b-32768".toList),
   ("gemma2-9b".toList, "gemma2-9b-it".toList)]

/-- `AVAILABLE_MODELS[model] || model`: known short names resolve, any
other string passes through. -/
def resolveModel (m : Str) : Str :=
  match AVAILABLE_MODELS.find? (fun kv => kv.1 == m) with
  | some kv => kv.2
  | none => m

/-- The request body `GroqClient.chat` sends (lines 97-105): resolved
model, and the three sampling options filled with `||` defaults. -/
structure GroqRequest where
  model : Str
  temperature : ℚ
  max_tokens : ℚ
  top_p : ℚ
deriving DecidableEq

/-- Construction of the chat-completion request from the caller's model
name and options. -/
def groqChatRequest (model : Str) (options : ChatOptions) : GroqRequest :=
  { model := resolveModel model
    temperature := jsOrNum options.temperature (7 / 10)
    max_tokens := jsOrNum options.maxTokens 4000
    top_p := jsOrNum options.top_p 1 }

/-- C10: an explicit 0 for temperature, maxTokens or top_p is falsy, so
`||` replaces it with the default (0.7, 4000, 1) exactly as an absent
option is. -/
theorem c10_falsy_option_defaults (model : Str) (options : ChatOptions) :
    (options.temperature = some 0 → (groqChatRequest model options).temperature = 7 / 10)
    ∧ (options.maxTokens = some 0 → (groqChatRequest model options).max_tokens = 4000)
    ∧ (options.top_p = some 0 → (groqChatRequest model options).top_p = 1)
    ∧ (options.temperature = none → (groqChatRequest model options).temperature = 7 / 10)
    ∧ (options.maxTokens = none → (groqChatRequest model options).max_tokens = 4000)
    ∧ (options.top_p = none → (groqChatRequest model options).top_p = 1) := by
  refine ⟨?_, ?_, ?_, ?_, ?_, ?_⟩ <;> intro h <;> simp [groqChatRequest, jsOrNum, h]

/-- C10 witness: with all three options explicitly 0, every request
field carries its default. -/
theorem c10_falsy_option_defaults_witness :
    (groqChatRequest "llama-4-scout".toList ⟨some 0, some 0, some 0⟩).temperature = 7 / 10
    ∧ (groqChatRequest "llama-4-scout".toList ⟨some 0, some 0, some 0⟩).max_tokens = 4000
    ∧ (groqChatRequest "llama-4-scout".toList ⟨some 0, some 0, some 0⟩).top_p = 1 :=
  ⟨(c10_falsy_option_defaults "llama-4-scout".toList ⟨some 0, some 0, some 0⟩).1 rfl,
   (c10_falsy_option_defaults "llama-4-scout".toList ⟨some 0, some 0, some 0⟩).2.1 rfl,
   (c10_falsy_option_defaults "llama-4-scout".toList ⟨some 0, some 0, some 0⟩).2.2.1 rfl⟩

theorem isPre_iff_append {p q : FsPath} : isPre p q = true ↔ ∃ r, q = p ++ r := by
  induction p generalizing q with
  | nil => simp [isPre]
  | cons a as ih =>
    cases q with
    | nil =>
      simp only [isPre]
      constructor
      · intro h; exact Bool.noConfusion h
      · rintro ⟨r, hr⟩; exact absurd hr (by simp)
    | cons b bs =>
      simp only [isPre]
      by_cases hab : a = b
      · subst hab
        rw [if_pos rfl, ih]
        constructor
        · rintro ⟨r, rfl⟩
          exact ⟨r, rfl⟩
        · rintro ⟨r, hr⟩
          injection hr with _ h2
          exact ⟨r, h2⟩
      · rw [if_neg hab]
        constructor
        · intro h; exact Bool.noConfusion h
        · rintro ⟨r, hr⟩
          injection hr with h1 _
          exact absurd h1.symm hab

theorem isPre_refl (p : FsPath) : isPre p p = true :=
  isPre_iff_append.mpr ⟨[], by simp⟩

theorem isPre_append (p r : FsPath) : isPre p (p ++ r) = true :=
  isPre_iff_append.mpr ⟨r, rfl⟩

theorem isPre_length {p q : FsPath} (h : isPre p q = true) : p.length ≤ q.length := by
  obtain ⟨r, rfl⟩ := isPre_iff_append.mp h
  simp

theorem eq_append_drop {p q : FsPath} (h : isPre p q = true) :
    q = p ++ q.drop p.length := by
  obtain ⟨r, rfl⟩ := isPre_iff_append.mp h
  rw [List.drop_left]

theorem isPre_cancel (pp a b : FsPath) : isPre (pp ++ a) (pp ++ b) = isPre a b := by
  induction pp with
  | nil => rfl
  | cons x xs ih => simp [isPre, ih]

theorem isPre_trans {a b c : FsPath} (h1 : isPre a b = true) (h2 : isPre b c = true) :
    isPre a c = true := by
  obtain ⟨r, rfl⟩ := isPre_iff_append.mp h1
  obtain ⟨s, rfl⟩ := isPre_iff_append.mp h2
  exact isPre_iff_append.mpr ⟨r ++ s, by rw [List.append_assoc]⟩

theorem isPre_dropLast {p q : FsPath} (h : isPre p q = true) (hne : p ≠ q) :
    isPre p q.dropLast = true := by
  obtain ⟨r, rfl⟩ := isPre_iff_append.mp h
  cases r with
  | nil => exact absurd (by simp) hne
  | cons x xs =>
    rw [List.dropLast_append_of_ne_nil _ (by simp)]
    exact isPre_append _ _

theorem isPre_take (p : FsPath) (n : Nat) : isPre (p.take n) p = true :=
  isPre_iff_append.mpr ⟨p.drop n, (List.take_append_drop n p).symm⟩

theorem take_of_isPre {p q : FsPath} (h : isPre q p = true) : q = p.take q.length := by
  obtain ⟨r, rfl⟩ := isPre_iff_append.mp h
  rw [List.take_left]

theorem mem_prefixesNE {q p : FsPath} :
    q ∈ prefixesNE p ↔ (isPre q p = true ∧ q ≠ []) := by
  unfold prefixesNE
  simp only [List.mem_map, List.mem_range]
  constructor
  · rintro ⟨i, hi, rfl⟩
    refine ⟨isPre_take p (i + 1), ?_⟩
    have : (p.take (i + 1)).length = i + 1 := by
      rw [List.length_take]
      omega
    intro he
    rw [he] at this
    simp at this
  · rintro ⟨h, hne⟩
    have hlen : q.length ≤ p.length := isPre_length h
    have hpos : 0 < q.length := List.length_pos.mpr hne
    refine ⟨q.length - 1, by omega, ?_⟩
    have : q.length - 1 + 1 = q.length := by omega
    rw [this]
    exact (take_of_isPre h).symm

theorem take_succ_dropLast (p : FsPath) (i : Nat) (h : i < p.length) :
    (p.take (i + 1)).dropLast = p.take i := by
  rw [List.dropLast_eq_take, List.take_take, List.length_take]
  congr 1
  omega

/-- All entry paths of the filesystem: directories and file keys. -/
def entryPaths (fs : FS) : List FsPath :=
  fs.dirs ++ fs.files.map (fun e => e.1)

/-- Parent-closure and consistency of a filesystem: every entry is
nonempty and its parent is a directory, and no directory is also a
file. Every state reachable by the modelled operations satisfies it. -/
structure Closed (fs : FS) : Prop where
  dirs_ne : ∀ p ∈ fs.dirs, p ≠ []
  dirs_parent : ∀ p ∈ fs.dirs, IsDir fs (parent p)
  files_ne : ∀ e ∈ fs.files, e.1 ≠ []
  files_parent : ∀ e ∈ fs.files, IsDir fs (parent e.1)
  disj : ∀ p ∈ fs.dirs, lookupFile fs.files p = none

theorem closed_emptyFS : Closed emptyFS :=
  ⟨by simp [emptyFS], by simp [emptyFS], by simp [emptyFS], by simp [emptyFS],
   by simp [emptyFS]⟩

theorem mkdirRec_ok_parts {fs : FS} {p : FsPath} {fs' : FS}
    (h : mkdirRec fs p = .ok fs') :
    fs'.dirs = prefixesNE p ++ fs.dirs ∧ fs'.files = fs.files := by
  unfold mkdirRec at h
  split at h
  · exact Except.noConfusion h
  · injection h with h
    subst h
    exact ⟨rfl, rfl⟩

theorem mkdirRec_ok_guard {fs : FS} {p : FsPath} {fs' : FS}
    (h : mkdirRec fs p = .ok fs') :
    ∀ q ∈ prefixesNE p, lookupFile fs.files q = none := by
  unfold mkdirRec at h
  split at h
  · exact Except.noConfusion h
  · rename_i hg
    intro q hq
    cases hl : lookupFile fs.files q with
    | none => rfl
    | some v =>
      exact absurd (List.any_eq_true.mpr ⟨q, hq, by rw [hl]; rfl⟩) hg

theorem writeFile_ok_cond {fs : FS} {p : FsPath} {c : Str} {t : Int} {fs' : FS}
    (h : writeFile fs p c t = .ok fs') :
    p ≠ [] ∧ p ∉ fs.dirs ∧ IsDir fs (parent p) := by
  unfold writeFile at h
  split at h
  · exact Except.noConfusion h
  · split at h
    · exact Except.noConfusion h
    · split at h
      · exact Except.noConfusion h
      · rename_i h1 h2 h3
        exact ⟨h1, h2, not_not.mp h3⟩

theorem mem_setFile {files : List (FsPath × Str × Int)} {p : FsPath} {c : Str}
    {t : Int} {e : FsPath × Str × Int} (h : e ∈ setFile files p c t) :
    e = (p, c, t) ∨ e ∈ files := by
  induction files with
  | nil => simpa [setFile] using h
  | cons f rest ih =>
    by_cases hf : f.1 = p
    · rw [setFile, if_pos hf] at h
      rcases List.mem_cons.mp h with rfl | hr
      · exact Or.inl rfl
      · exact Or.inr (List.mem_cons_of_mem f hr)
    · rw [setFile, if_neg hf] at h
      rcases List.mem_cons.mp h with rfl | hr
      · exact Or.inr (List.mem_cons_self _ _)
      · rcases ih hr with he | he
        · exact Or.inl he
        · exact Or.inr (List.mem_cons_of_mem f he)

theorem lookup_setFile_isSome {files : List (FsPath × Str × Int)} {p q : FsPath}
    {c : Str} {t : Int}
    (h : (lookupFile (setFile files p c t) q).isSome = true) :
    q = p ∨ (lookupFile files q).isSome = true := by
  by_cases hq : q = p
  · exact Or.inl hq
  · rw [lookup_setFile_ne _ _ _ hq] at h
    exact Or.inr h

theorem isDir_after_mkdir {fs : FS} {p : FsPath} {fs' : FS}
    (h : mkdirRec fs p = .ok fs') : IsDir fs' p := by
  by_cases hp : p = []
  · exact Or.inl hp
  · refine Or.inr ?_
    rw [(mkdirRec_ok_parts h).1, List.mem_append]
    exact Or.inl (mem_prefixesNE.mpr ⟨isPre_refl p, hp⟩)

theorem isDir_mono_mkdir {fs : FS} {p : FsPath} {fs' : FS}
    (h : mkdirRec fs p = .ok fs') {q : FsPath} (hq : IsDir fs q) : IsDir fs' q := by
  rcases hq with hq | hq
  · exact Or.inl hq
  · refine Or.inr ?_
    rw [(mkdirRec_ok_parts h).1, List.mem_append]
    exact Or.inr hq

theorem isFile_iff_mkdir {fs : FS} {p : FsPath} {fs' : FS}
    (h : mkdirRec fs p = .ok fs') (q : FsPath) : IsFile fs' q ↔ IsFile fs q := by
  unfold IsFile
  rw [(mkdirRec_ok_parts h).2]

theorem isDir_iff_write {fs : FS} {p : FsPath} {c : Str} {t : Int} {fs' : FS}
    (h : writeFile fs p c t = .ok fs') (q : FsPath) : IsDir fs' q ↔ IsDir fs q := by
  unfold IsDir
  rw [(writeFile_ok h).1]

theorem isFile_mono_write {fs : FS} {p : FsPath} {c : Str} {t : Int} {fs' : FS}
    (h : writeFile fs p c t = .ok fs') {q : FsPath} (hq : IsFile fs q) :
    IsFile fs' q := by
  unfold IsFile at hq ⊢
  rw [(writeFile_ok h).2]
  by_cases hqp : q = p
  · subst hqp
    rw [lookup_setFile_self]
    rfl
  · rw [lookup_setFile_ne _ _ _ hqp]
    exact hq

theorem isFile_after_write {fs : FS} {p : FsPath} {c : Str} {t : Int} {fs' : FS}
    (h : writeFile fs p c t = .ok fs') : IsFile fs' p := by
  unfold IsFile
  rw [(writeFile_ok h).2, lookup_setFile_self]
  rfl

theorem closed_mkdirRec {fs : FS} {p : FsPath} {fs' : FS}
    (hc : Closed fs) (h : mkdirRec fs p = .ok fs') : Closed fs' := by
  obtain ⟨hdirs, hfiles⟩ := mkdirRec_ok_parts h
  refine ⟨?_, ?_, ?_, ?_, ?_⟩
  · intro q hq
    rw [hdirs, List.mem_append] at hq
    rcases hq with hq | hq
    · exact (mem_prefixesNE.mp hq).2
    · exact hc.dirs_ne q hq
  · intro q hq
    rw [hdirs, List.mem_append] at hq
    rcases hq with hq | hq
    · obtain ⟨i, hi, rfl⟩ := by
        simpa only [prefixesNE, List.mem_map, List.mem_range] using hq
      rw [parent, take_succ_dropLast p i hi]
      cases i with
      | zero => exact Or.inl (by simp)
      | succ j =>
        refine Or.inr ?_
        rw [hdirs, List.mem_append]
        refine Or.inl (mem_prefixesNE.mpr ⟨isPre_take p (j + 1), ?_⟩)
        have : (p.take (j + 1)).length = j + 1 := by
          rw [List.length_take]; omega
        intro he
        rw [he] at this
        simp at this
    · exact isDir_mono_mkdir h (hc.dirs_parent q hq)
  · intro e he
    rw [hfiles] at he
    exact hc.files_ne e he
  · intro e he
    rw [hfiles] at he
    exact isDir_mono_mkdir h (hc.files_parent e he)
  · intro q hq
    rw [hfiles]
    rw [hdirs, List.mem_append] at hq
    rcases hq with hq | hq
    · exact mkdirRec_ok_guard h q hq
    · exact hc.disj q hq

theorem closed_writeFile {fs : FS} {p : FsPath} {c : Str} {t : Int} {fs' : FS}
    (hc : Closed fs) (h : writeFile fs p c t = .ok fs') : Closed fs' := by
  obtain ⟨hdirs, hfiles⟩ := writeFile_ok h
  obtain ⟨hne, hnotdir, hparent⟩ := writeFile_ok_cond h
  have hIsDir : ∀ q, IsDir fs' q ↔ IsDir fs q := isDir_iff_write h
  refine ⟨?_, ?_, ?_, ?_, ?_⟩
  · intro q hq
    rw [hdirs] at hq
    exact hc.dirs_ne q hq
  · intro q hq
    rw [hdirs] at hq
    exact (hIsDir _).mpr (hc.dirs_parent q hq)
  · intro e he
    rw [hfiles] at he
    rcases mem_setFile he with rfl | he
    · exact hne
    · exact hc.files_ne e he
  · intro e he
    rw [hfiles] at he
    rcases mem_setFile he with rfl | he
    · exact (hIsDir _).mpr hparent
    · exact (hIsDir _).mpr (hc.files_parent e he)
  · intro q hq
    rw [hdirs] at hq
    have hqp : q ≠ p := by
      intro hqp
      rw [hqp] at hq
      exact hnotdir hq
    rw [hfiles, lookup_setFile_ne _ _ _ hqp]
    exact hc.disj q hq

theorem createGo_spec (t : Int) (pp : FsPath) :
    ∀ (entries : List (Str × FileEntry)) (fs fs' : FS),
      createGo t pp fs entries = .ok fs' → Closed fs →
      Closed fs'
      ∧ (∀ q, IsFile fs q → IsFile fs' q)
      ∧ (∀ q, IsDir fs q → IsDir fs' q)
      ∧ (∀ q, IsFile fs' q →
          IsFile fs q ∨ ∃ k c, (k, FileEntry.file c) ∈ entries ∧ joinStr pp k = q)
      ∧ (∀ k c, (k, FileEntry.file c) ∈ entries → IsFile fs' (joinStr pp k))
      ∧ (∀ k, (k, FileEntry.directory) ∈ entries → IsDir fs' (joinStr pp k)) := by
  intro entries
  induction entries with
  | nil =>
    intro fs fs' h hc
    have hfs : fs = fs' := by
      simpa [createGo] using h
    subst hfs
    refine ⟨hc, fun q hq => hq, fun q hq => hq, fun q hq => Or.inl hq, ?_, ?_⟩
    · intro k c hk; exact absurd hk (by simp)
    · intro k hk; exact absurd hk (by simp)
  | cons ke rest ih =>
    intro fs fs' h hc
    obtain ⟨rel, ent⟩ := ke
    cases ent with
    | directory =>
      simp only [createGo] at h
      split at h
      · rename_i fs1 hmk
        obtain ⟨ihc, ihfmono, ihdmono, ihffrom, ihfent, ihdent⟩ :=
          ih fs1 fs' h (closed_mkdirRec hc hmk)
        refine ⟨ihc, ?_, ?_, ?_, ?_, ?_⟩
        · intro q hq; exact ihfmono q ((isFile_iff_mkdir hmk q).mpr hq)
        · intro q hq; exact ihdmono q (isDir_mono_mkdir hmk hq)
        · intro q hq
          rcases ihffrom q hq with hq' | ⟨k, c, hk, hj⟩
          · exact Or.inl ((isFile_iff_mkdir hmk q).mp hq')
          · exact Or.inr ⟨k, c, List.mem_cons_of_mem _ hk, hj⟩
        · intro k c hk
          rcases List.mem_cons.mp hk with heq | hk'
          · exact absurd heq (by simp)
          · exact ihfent k c hk'
        · intro k hk
          rcases List.mem_cons.mp hk with heq | hk'
          · have hkrel : k = rel := congrArg Prod.fst heq
            rw [hkrel]
            exact ihdmono _ (isDir_after_mkdir hmk)
          · exact ihdent k hk'
      · exact Except.noConfusion h
    | file c =>
      simp only [createGo] at h
      split at h
      · rename_i fs1 hmk
        split at h
        · rename_i fs2 hw
          obtain ⟨ihc, ihfmono, ihdmono, ihffrom, ihfent, ihdent⟩ :=
            ih fs2 fs' h (closed_writeFile (closed_mkdirRec hc hmk) hw)
          refine ⟨ihc, ?_, ?_, ?_, ?_, ?_⟩
          · intro q hq
            exact ihfmono q (isFile_mono_write hw ((isFile_iff_mkdir hmk q).mpr hq))
          · intro q hq
            exact ihdmono q ((isDir_iff_write hw q).mpr (isDir_mono_mkdir hmk hq))
          · intro q hq
            rcases ihffrom q hq with hq' | ⟨k, c', hk, hj⟩
            · have hcase : q = joinStr pp rel ∨ IsFile fs1 q := by
                unfold IsFile at hq'
                rw [(writeFile_ok hw).2] at hq'
                exact lookup_setFile_isSome hq'
              rcases hcase with rfl | hq''
              · exact Or.inr ⟨rel, c, List.mem_cons_self _ _, rfl⟩
              · exact Or.inl ((isFile_iff_mkdir hmk q).mp hq'')
            · exact Or.inr ⟨k, c', List.mem_cons_of_mem _ hk, hj⟩
          · intro k c' hk
            rcases List.mem_cons.mp hk with heq | hk'
            · have hkrel : k = rel := congrArg Prod.fst heq
              rw [hkrel]
              exact ihfmono _ (isFile_after_write hw)
            · exact ihfent k c' hk'
          · intro k hk
            rcases List.mem_cons.mp hk with heq | hk'
            · exact absurd heq (by simp)
            · exact ihdent k hk'
        · exact Except.noConfusion h
      · exact Except.noConfusion h
    | other =>
      simp only [createGo] at h
      obtain ⟨ihc, ihfmono, ihdmono, ihffrom, ihfent, ihdent⟩ := ih fs fs' h hc
      refine ⟨ihc, ihfmono, ihdmono, ?_, ?_, ?_⟩
      · intro q hq
        rcases ihffrom q hq with hq' | ⟨k, c, hk, hj⟩
        · exact Or.inl hq'
        · exact Or.inr ⟨k, c, List.mem_cons_of_mem _ hk, hj⟩
      · intro k c hk
        rcases List.mem_cons.mp hk with heq | hk'
        · exact absurd heq (by simp)
        · exact ihfent k c hk'
      · intro k hk
        rcases List.mem_cons.mp hk with heq | hk'
        · exact absurd heq (by simp)
        · exact ihdent k hk'

theorem lookup_isSome_iff {files : List (FsPath × Str × Int)} {q : FsPath} :
    (lookupFile files q).isSome = true ↔ q ∈ files.map (fun e => e.1) := by
  induction files with
  | nil => simp [lookupFile]
  | cons f rest ih =>
    obtain ⟨p, c, t⟩ := f
    by_cases hp : p = q
    · subst hp
      simp [lookupFile]
    · simp [lookupFile, hp, ih, Ne.symm hp]

/-- `fs.readdir(d)`: the names of the immediate children of `d`, read
off the filesystem's entries. -/
def childNames (fs : FS) (d : FsPath) : List Seg :=
  ((entryPaths fs).filterMap
    (fun e => if isPre d e then (e.drop d.length).head? else none)).dedup

theorem mem_childNames {fs : FS} {d : FsPath} {s : Seg} :
    s ∈ childNames fs d ↔
      ∃ e ∈ entryPaths fs, isPre d e = true ∧ (e.drop d.length).head? = some s := by
  unfold childNames
  rw [List.mem_dedup, List.mem_filterMap]
  constructor
  · rintro ⟨e, he, hfe⟩
    by_cases hd : isPre d e = true
    · rw [if_pos hd] at hfe
      exact ⟨e, he, hd, hfe⟩
    · rw [if_neg hd] at hfe
      exact Option.noConfusion hfe
  · rintro ⟨e, he, hd, hh⟩
    exact ⟨e, he, by rw [if_pos hd]; exact hh⟩

/-- `FileSystemManager.getFileTree(projectPath, relativePath)`: read the
children of the current directory; a directory child is listed and
recursed into (its subtree flattened in), a file child is listed.  The
`Bool` is `stats.isDirectory()`; `fuel` bounds the recursion depth. -/
def getFileTree (fs : FS) (pp : FsPath) : Nat → FsPath → List (FsPath × Bool)
  | 0, _ => []
  | fuel + 1, rel =>
    (childNames fs (pp ++ rel)).flatMap (fun item =>
      if IsDir fs (pp ++ rel ++ [item]) then
        (rel ++ [item], true) :: getFileTree fs pp fuel (rel ++ [item])
      else [(rel ++ [item], false)])

/-- An upper bound on the length of every entry path. -/
def maxEntryLen (fs : FS) : Nat := ((entryPaths fs).map List.length).foldr max 0

theorem foldr_max_le {l : List Nat} {x : Nat} (hx : x ∈ l) : x ≤ l.foldr max 0 := by
  induction l with
  | nil => exact absurd hx (by simp)
  | cons y ys ih =>
    rcases List.mem_cons.mp hx with rfl | hx'
    · exact le_max_left _ _
    · exact le_trans (ih hx') (le_max_right _ _)

theorem le_maxEntryLen {fs : FS} {e : FsPath} (he : e ∈ entryPaths fs) :
    e.length ≤ maxEntryLen fs :=
  foldr_max_le (List.mem_map_of_mem List.length he)

theorem length_lt_of_proper_pre {p q : FsPath} (h : isPre p q = true) (hne : p ≠ q) :
    p.length < q.length := by
  obtain ⟨r, rfl⟩ := isPre_iff_append.mp h
  cases r with
  | nil => exact absurd (by simp) hne
  | cons x xs => simp

theorem eq_of_isPre_of_length {p q : FsPath} (h : isPre p q = true)
    (hlen : q.length ≤ p.length) : p = q := by
  obtain ⟨r, rfl⟩ := isPre_iff_append.mp h
  cases r with
  | nil => simp
  | cons x xs => simp at hlen

theorem isDir_of_pre_entry {fs : FS} (hc : Closed fs) :
    ∀ (n : Nat) (e : FsPath), e.length ≤ n → e ∈ entryPaths fs →
      ∀ p, isPre p e = true → p ≠ e → IsDir fs p := by
  intro n
  induction n with
  | zero =>
    intro e hlen he p hp hne
    have he0 : e = [] := List.length_eq_zero.mp (Nat.le_zero.mp hlen)
    subst he0
    rcases List.mem_append.mp he with hd | hf
    · exact absurd rfl (hc.dirs_ne [] hd)
    · obtain ⟨x, hx, hx1⟩ := List.mem_map.mp hf
      exact absurd hx1 (hc.files_ne x hx)
  | succ n ihn =>
    intro e hlen he p hp hne
    have hene : e ≠ [] := by
      rcases List.mem_append.mp he with hd | hf
      · exact hc.dirs_ne e hd
      · obtain ⟨x, hx, hx1⟩ := List.mem_map.mp hf
        exact hx1 ▸ hc.files_ne x hx
    have hpar : IsDir fs (parent e) := by
      rcases List.mem_append.mp he with hd | hf
      · exact hc.dirs_parent e hd
      · obtain ⟨x, hx, rfl⟩ := List.mem_map.mp hf
        exact hc.files_parent x hx
    by_cases hpp : p = parent e
    · rw [hpp]; exact hpar
    · have hpre' : isPre p (parent e) = true := isPre_dropLast hp hne
      have hplen : (parent e).length ≤ n := by
        rw [parent, List.length_dropLast]
        have : 0 < e.length := List.length_pos.mpr hene
        omega
      rcases hpar with hnil | hdir
      · rw [hnil] at hpre'
        cases p with
        | nil => exact Or.inl rfl
        | cons a as => exact Bool.noConfusion hpre'
      · exact ihn (parent e) hplen (List.mem_append.mpr (Or.inl hdir)) p hpre' hpp

theorem mem_getFileTree {fs : FS} (hc : Closed fs) (pp : FsPath) :
    ∀ (fuel : Nat) (rel : FsPath),
      (∀ e ∈ entryPaths fs, isPre (pp ++ rel) e = true →
        e.length ≤ (pp ++ rel).length + fuel) →
      ∀ (q : FsPath) (b : Bool),
        ((q, b) ∈ getFileTree fs pp fuel rel ↔
          (isPre rel q = true ∧ rel ≠ q ∧ (pp ++ q) ∈ entryPaths fs
            ∧ (b = true ↔ IsDir fs (pp ++ q)))) := by
  intro fuel
  induction fuel with
  | zero =>
    intro rel hbound q b
    simp only [getFileTree]
    refine ⟨fun h => absurd h (List.not_mem_nil _), ?_⟩
    rintro ⟨hpre, hne, hent, -⟩
    exfalso
    have h1 : isPre (pp ++ rel) (pp ++ q) = true := by
      rw [isPre_cancel]; exact hpre
    have h2 := hbound _ hent h1
    have h3 : rel.length < q.length := length_lt_of_proper_pre hpre hne
    rw [List.length_append, List.length_append] at h2
    omega
  | succ fuel ihf =>
    intro rel hbound q b
    simp only [getFileTree, List.mem_flatMap]
    constructor
    · rintro ⟨item, hitem, hmem⟩
      obtain ⟨e, he, hpree, hhead⟩ := mem_childNames.mp hitem
      have hdecomp := eq_append_drop hpree
      cases hdrop : e.drop (pp ++ rel).length with
      | nil =>
        rw [hdrop] at hhead
        exact Option.noConfusion hhead
      | cons x xs =>
        rw [hdrop] at hhead hdecomp
        have hx : x = item := by simpa using hhead
        rw [hx] at hdecomp
        have hkeypre : isPre (pp ++ rel ++ [item]) e = true := by
          rw [hdecomp]
          exact isPre_iff_append.mpr ⟨xs, by simp⟩
        have hkeyentry : (pp ++ rel ++ [item]) ∈ entryPaths fs := by
          by_cases hke : pp ++ rel ++ [item] = e
          · rw [hke]; exact he
          · rcases isDir_of_pre_entry hc e.length e le_rfl he _ hkeypre hke with hnil | hdir
            · exact absurd hnil (by simp)
            · exact List.mem_append.mpr (Or.inl hdir)
        by_cases hdir : IsDir fs (pp ++ rel ++ [item])
        · rw [if_pos hdir] at hmem
          rcases List.mem_cons.mp hmem with heqp | hrec
          · rw [Prod.mk.injEq] at heqp
            obtain ⟨hq, hb⟩ := heqp
            subst hq
            subst hb
            refine ⟨isPre_append rel [item], ?_, ?_, ?_⟩
            · intro heq
              have := congrArg List.length heq
              simp at this
            · rw [← List.append_assoc]
              exact hkeyentry
            · constructor
              · intro _
                rw [← List.append_assoc]
                exact hdir
              · intro _; rfl
          · have hbound' : ∀ e' ∈ entryPaths fs, isPre (pp ++ (rel ++ [item])) e' = true →
                e'.length ≤ (pp ++ (rel ++ [item])).length + fuel := by
              intro e' he' hp'
              have hstep : isPre (pp ++ rel) (pp ++ (rel ++ [item])) = true := by
                rw [← List.append_assoc]
                exact isPre_append _ _
              have h2 := hbound e' he' (isPre_trans hstep hp')
              simp only [List.length_append] at h2 ⊢
              simp at h2 ⊢
              omega
            obtain ⟨hp1, hne1, hent1, hb1⟩ := (ihf (rel ++ [item]) hbound' q b).mp hrec
            refine ⟨isPre_trans (isPre_append rel [item]) hp1, ?_, hent1, hb1⟩
            intro heq
            have h4 := isPre_length hp1
            rw [← heq] at h4
            simp [List.length_append] at h4
        · rw [if_neg hdir] at hmem
          have heqp : (q, b) = (rel ++ [item], false) := by
            simpa using hmem
          rw [Prod.mk.injEq] at heqp
          obtain ⟨hq, hb⟩ := heqp
          subst hq
          subst hb
          refine ⟨isPre_append rel [item], ?_, ?_, ?_⟩
          · intro heq
            have := congrArg List.length heq
            simp at this
          · rw [← List.append_assoc]
            exact hkeyentry
          · constructor
            · intro hfalse; exact Bool.noConfusion hfalse
            · intro hdir2
              exfalso
              rw [← List.append_assoc] at hdir2
              exact hdir hdir2
    · rintro ⟨hpre, hne, hent, hb⟩
      have hdecomp := eq_append_drop hpre
      cases hdrop : q.drop rel.length with
      | nil =>
        rw [hdrop, List.append_nil] at hdecomp
        exact absurd hdecomp.symm hne
      | cons s tail =>
        rw [hdrop] at hdecomp
        have hchild : s ∈ childNames fs (pp ++ rel) := by
          apply mem_childNames.mpr
          refine ⟨pp ++ q, hent, ?_, ?_⟩
          · rw [isPre_cancel]; exact hpre
          · rw [hdecomp, ← List.append_assoc, List.drop_left]
            rfl
        refine ⟨s, hchild, ?_⟩
        cases tail with
        | nil =>
          by_cases hdir : IsDir fs (pp ++ rel ++ [s])
          · rw [if_pos hdir]
            have hbtrue : b = true := by
              apply hb.mpr
              rw [hdecomp, ← List.append_assoc]
              exact hdir
            rw [hdecomp, hbtrue]
            exact List.mem_cons_self _ _
          · rw [if_neg hdir]
            have hbfalse : b = false := by
              cases b with
              | false => rfl
              | true =>
                exfalso
                have hd2 := hb.mp rfl
                rw [hdecomp, ← List.append_assoc] at hd2
                exact hdir hd2
            rw [hdecomp, hbfalse]
            exact List.mem_singleton.mpr rfl
        | cons s2 t2 =>
          have hkeypre : isPre (pp ++ rel ++ [s]) (pp ++ q) = true := by
            rw [hdecomp, ← List.append_assoc]
            exact isPre_iff_append.mpr ⟨s2 :: t2, by simp⟩
          have hkne : pp ++ rel ++ [s] ≠ pp ++ q := by
            intro heq
            have := congrArg List.length heq
            rw [hdecomp] at this
            simp [List.length_append] at this
          have hdir : IsDir fs (pp ++ rel ++ [s]) := by
            rcases isDir_of_pre_entry hc (pp ++ q).length _ le_rfl hent _ hkeypre hkne
              with hnil | hdir
            · exact absurd hnil (by simp)
            · exact Or.inr hdir
          rw [if_pos hdir]
          apply List.mem_cons_of_mem
          have hbound' : ∀ e' ∈ entryPaths fs, isPre (pp ++ (rel ++ [s])) e' = true →
              e'.length ≤ (pp ++ (rel ++ [s])).length + fuel := by
            intro e' he' hp'
            have hstep : isPre (pp ++ rel) (pp ++ (rel ++ [s])) = true := by
              rw [← List.append_assoc]
              exact isPre_append _ _
            have h2 := hbound e' he' (isPre_trans hstep hp')
            simp only [List.length_append] at h2 ⊢
            simp at h2 ⊢
            omega
          apply (ihf (rel ++ [s]) hbound' q b).mpr
          refine ⟨?_, ?_, hent, hb⟩
          · rw [hdecomp]
            exact isPre_iff_append.mpr ⟨s2 :: t2, by simp⟩
          · intro heq
            have := congrArg List.length heq
            rw [hdecomp] at this
            simp [List.length_append] at this

theorem createProjectFiles_parts {fs : FS} {t : Int} {pid : Str}
    {tree : List (Str × FileEntry)} {fs' : FS} {pp : FsPath}
    (h : createProjectFiles fs t pid tree = .ok (fs', pp)) :
    pp = joinStr PROJECTS_DIR pid
    ∧ ∃ fs0, mkdirRec fs (joinStr PROJECTS_DIR pid) = .ok fs0
        ∧ createGo t (joinStr PROJECTS_DIR pid) fs0 tree = .ok fs' := by
  refine ⟨createProjectFiles_path h, ?_⟩
  simp only [createProjectFiles] at h
  split at h
  · rename_i fs0 hmk
    cases hcg : createGo t (joinStr PROJECTS_DIR pid) fs0 tree with
    | ok fs2 =>
      rw [hcg] at h
      simp only [Except.map] at h
      injection h with h2
      rw [Prod.mk.injEq] at h2
      exact ⟨fs0, hmk, by rw [hcg, h2.1]⟩
    | error e =>
      rw [hcg] at h
      simp only [Except.map] at h
      exact Except.noConfusion h
  · exact Except.noConfusion h

theorem isFile_not_isDir {fs : FS} (hc : Closed fs) {p : FsPath}
    (hf : IsFile fs p) : ¬ IsDir fs p := by
  intro hd
  rcases hd with rfl | hd
  · unfold IsFile at hf
    rw [lookup_isSome_iff] at hf
    obtain ⟨e, he, he1⟩ := List.mem_map.mp hf
    exact hc.files_ne e he he1
  · have hnone := hc.disj p hd
    unfold IsFile at hf
    rw [hnone] at hf
    exact Bool.noConfusion hf

theorem isFile_ne_nil {fs : FS} (hc : Closed fs) {p : FsPath}
    (hf : IsFile fs p) : p ≠ [] := by
  unfold IsFile at hf
  rw [lookup_isSome_iff] at hf
  obtain ⟨e, he, he1⟩ := List.mem_map.mp hf
  exact he1 ▸ hc.files_ne e he

/-- C7: for a well-formed tree (no unknown entry kinds, every joined
path strictly inside the project root) materialized from scratch, a full
re-scan lists every descriptor path, and every scanned file (every
non-directory extra) comes from a descriptor file entry — extras can
only be directories. -/
theorem c7_materialize_rescan_roundtrip (t : Int) (pid : Str)
    (tree : List (Str × FileEntry)) (fs' : FS) (pp : FsPath)
    (hok : createProjectFiles emptyFS t pid tree = .ok (fs', pp))
    (hwf : ∀ ke ∈ tree, ke.2 ≠ FileEntry.other
      ∧ isPre pp (joinStr pp ke.1) = true ∧ joinStr pp ke.1 ≠ pp) :
    (∀ ke ∈ tree, ((joinStr pp ke.1).drop pp.length)
        ∈ (getFileTree fs' pp (maxEntryLen fs') []).map Prod.fst)
    ∧ (∀ qb ∈ getFileTree fs' pp (maxEntryLen fs') [], qb.2 = false →
        ∃ k c, (k, FileEntry.file c) ∈ tree ∧ joinStr pp k = pp ++ qb.1) := by
  obtain ⟨hpp, fs0, hmk, hcg⟩ := createProjectFiles_parts hok
  subst hpp
  have hc0 : Closed fs0 := closed_mkdirRec closed_emptyFS hmk
  obtain ⟨hc', hfmono, hdmono, hffrom, hfent, hdent⟩ :=
    createGo_spec t (joinStr PROJECTS_DIR pid) tree fs0 fs' hcg hc0
  have hfs0files : fs0.files = [] := (mkdirRec_ok_parts hmk).2
  have hbound : ∀ e ∈ entryPaths fs', isPre (joinStr PROJECTS_DIR pid ++ []) e = true →
      e.length ≤ (joinStr PROJECTS_DIR pid ++ []).length + maxEntryLen fs' := by
    intro e he _
    have := le_maxEntryLen he
    omega
  constructor
  · intro ke hke
    obtain ⟨hno, hpre, hne⟩ := hwf ke hke
    have hdec := eq_append_drop hpre
    have hqne : (joinStr (joinStr PROJECTS_DIR pid) ke.1).drop
        (joinStr PROJECTS_DIR pid).length ≠ [] := by
      intro h0
      rw [h0, List.append_nil] at hdec
      exact hne hdec
    have hmem : joinStr (joinStr PROJECTS_DIR pid) ke.1 ∈ entryPaths fs' := by
      cases hke2 : ke.2 with
      | other => exact absurd hke2 hno
      | directory =>
        have heta : (ke.1, FileEntry.directory) = ke := by
          rw [← hke2]
        have hd : IsDir fs' (joinStr (joinStr PROJECTS_DIR pid) ke.1) :=
          hdent ke.1 (heta ▸ hke)
        rcases hd with h0 | h0
        · have h1 : joinStr PROJECTS_DIR pid ++ (joinStr (joinStr PROJECTS_DIR pid) ke.1).drop
              (joinStr PROJECTS_DIR pid).length = [] := hdec.symm.trans h0
          exact absurd (List.append_eq_nil.mp h1).2 hqne
        · exact List.mem_append.mpr (Or.inl h0)
      | file c =>
        have heta : (ke.1, FileEntry.file c) = ke := by
          rw [← hke2]
        have hf : IsFile fs' (joinStr (joinStr PROJECTS_DIR pid) ke.1) :=
          hfent ke.1 c (heta ▸ hke)
        apply List.mem_append.mpr
        refine Or.inr ?_
        unfold IsFile at hf
        exact lookup_isSome_iff.mp hf
    apply List.mem_map.mpr
    refine ⟨((joinStr (joinStr PROJECTS_DIR pid) ke.1).drop
        (joinStr PROJECTS_DIR pid).length,
        decide (IsDir fs' (joinStr (joinStr PROJECTS_DIR pid) ke.1))), ?_, rfl⟩
    apply (mem_getFileTree hc' (joinStr PROJECTS_DIR pid) (maxEntryLen fs') [] hbound _ _).mpr
    refine ⟨rfl, fun h0 => hqne h0.symm, ?_, ?_⟩
    · rw [← hdec]
      exact hmem
    · rw [← hdec]
      exact decide_eq_true_iff
  · intro qb hqb hfalse
    obtain ⟨q, b⟩ := qb
    simp only at hfalse
    subst hfalse
    obtain ⟨hpre, hne, hent, hbiff⟩ :=
      (mem_getFileTree hc' (joinStr PROJECTS_DIR pid) (maxEntryLen fs') [] hbound q false).mp hqb
    have hnotdir : ¬ IsDir fs' (joinStr PROJECTS_DIR pid ++ q) := fun hd =>
      Bool.noConfusion (hbiff.mpr hd)
    have hfile : IsFile fs' (joinStr PROJECTS_DIR pid ++ q) := by
      rcases List.mem_append.mp hent with hd | hf
      · exact absurd (Or.inr hd) hnotdir
      · unfold IsFile
        exact lookup_isSome_iff.mpr hf
    rcases hffrom _ hfile with h0 | ⟨k, c, hk, hj⟩
    · exfalso
      unfold IsFile at h0
      rw [hfs0files] at h0
      exact Bool.noConfusion h0
    · exact ⟨k, c, hk, hj⟩

/-- The file tree of the round-trip scenario: a directory entry `src/`
and a file `src/app.js` with content `x`. -/
def c7tree : List (Str × FileEntry) :=
  [("src/".toList, FileEntry.directory),
   ("src/app.js".toList, FileEntry.file (some "x".toList))]

/-- The materialization run of the round-trip scenario. -/
def c7run : Except Unit (FS × FsPath) := createProjectFiles emptyFS 0 "p1".toList c7tree

/-- The filesystem it produces. -/
def c7fs : FS :=
  match c7run with
  | .ok r => r.1
  | .error _ => emptyFS

/-- The project path it returns. -/
def c7pp : FsPath :=
  match c7run with
  | .ok r => r.2
  | .error _ => []

/-- C7 witness: the round-trip theorem applied to the concrete
`src/` + `src/app.js` descriptor. -/
theorem c7_materialize_rescan_roundtrip_witness :
    (∀ ke ∈ c7tree, ((joinStr c7pp ke.1).drop c7pp.length)
        ∈ (getFileTree c7fs c7pp (maxEntryLen c7fs) []).map Prod.fst)
    ∧ (∀ qb ∈ getFileTree c7fs c7pp (maxEntryLen c7fs) [], qb.2 = false →
        ∃ k c, (k, FileEntry.file c) ∈ c7tree ∧ joinStr c7pp k = c7pp ++ qb.1) :=
  c7_materialize_rescan_roundtrip 0 "p1".toList c7tree c7fs c7pp rfl (by decide)
